import Mathlib

/-!
# ipistorm: a shallow embedding of `ipistorm.c`

The file embeds the measurement thread `ipistorm_source_thread`, the spinning
thread `ipistorm_target_thread` and the statistics they keep, and proves
properties of the embedding.

Conventions.

* `unsigned long` is 64 bits wide (the code reads the PowerPC timebase with
  `mftb`); every `unsigned long` operation is a natural-number operation
  reduced modulo `2 ^ 64`.
* Undefined behaviour of C (an array access outside `delta_hist[32]`, a
  division by zero) is a `Fault`: the embedded code returns `Except Fault`.
* Everything that the kernel provides (`mftb`, `tb_to_ns`, `tb_ticks_per_usec`,
  `smp_call_function_single`) is a field of `Platform`; the module parameters
  are the fields of `Params`.
-/

namespace Ipistorm

/-! ## Machine arithmetic -/

/-- Modulus of the C type `unsigned long` on the 64-bit target. -/
def ULONG_MOD : Nat := 2 ^ 64

/-- The value `~0UL`, the largest `unsigned long`. -/
def ULONG_MAX : Nat := ULONG_MOD - 1

/-- Truncation of a natural number to an `unsigned long`. -/
def to_ulong (n : Nat) : Nat := n % ULONG_MOD

/-- Conversion of a `long` to `unsigned long` (the usual arithmetic conversion
applied to `timeout` in the loop condition). -/
def long_to_ulong (x : Int) : Nat := (x % (ULONG_MOD : Int)).toNat

/-- Subtraction `a - b` of two `unsigned long` values. -/
def ulong_sub (a b : Nat) : Nat := (to_ulong a + ULONG_MOD - to_ulong b) % ULONG_MOD

/-- The kernel constant `USEC_PER_SEC` (`1000000L`). -/
def USEC_PER_SEC : Nat := 1000000

/-- The ways in which the C code leaves defined behaviour. -/
inductive Fault where
  | out_of_bounds (idx : Int)
  | div_by_zero
  deriving DecidableEq, Repr

/-- Division `a / b` of two `unsigned long` values; dividing by zero is
undefined behaviour. -/
def ulong_div (a b : Nat) : Except Fault Nat :=
  if b = 0 then .error .div_by_zero else .ok (a / b)

/-! ## `ilog2` -/

/-- Position of the most significant set bit among the low `fuel` bits,
counted from 1; `0` when no bit is set. -/
def fls_go : Nat → Nat → Nat
  | 0, _ => 0
  | fuel + 1, n => if n = 0 then 0 else fls_go fuel (n / 2) + 1

/-- The kernel helper `fls64`: the position (from 1) of the most significant
set bit of a 64-bit value, `0` for the value `0`. -/
def fls64 (n : Nat) : Nat := fls_go 64 n

/-- Modelled from the spec: `ilog2` comes from the kernel headers and is not
part of this repository; the spec describes the bucket index as
`floor(log2(delta))`. For a 64-bit run-time argument the kernel computes
`fls64(n) - 1` as an `int`, which is `floor(log2 n)` for `n ≥ 1` and `-1`
for `n = 0`. -/
def ilog2 (n : Nat) : Int := (fls64 n : Int) - 1

/-! ## The statistics kept by `ipistorm_source_thread` -/

/-- Number of entries of `static unsigned long delta_hist[32]`. -/
def HIST_SIZE : Nat := 32

/-- The local variables `min`, `max`, `total`, `i` of
`ipistorm_source_thread` together with the static array `delta_hist`. -/
structure SourceState where
  min : Nat
  max : Nat
  total : Nat
  i : Nat
  delta_hist : List Nat
  deriving DecidableEq, Repr

/-- State at the declaration `min = ~0UL, max = 0, total = 0`, `i = 0`, with
the zero-initialised static array. -/
def source_init : SourceState :=
  { min := ULONG_MAX, max := 0, total := 0, i := 0,
    delta_hist := List.replicate HIST_SIZE 0 }

/-- The statement `delta_hist[idx]++`: an index outside `0 .. 31` is an
out-of-bounds access. -/
def hist_inc (hist : List Nat) (idx : Int) : Except Fault (List Nat) :=
  if 0 ≤ idx ∧ idx < (HIST_SIZE : Int) then
    .ok (hist.set idx.toNat ((hist.getD idx.toNat 0 + 1) % ULONG_MOD))
  else
    .error (.out_of_bounds idx)

/-- One pass through the body of the measurement loop once `delta` has been
computed: `total += delta`, the updates of `min` and `max`,
`delta_hist[ilog2(delta)]++` and `i++`. -/
def loop_body (st : SourceState) (delta : Nat) : Except Fault SourceState :=
  let total := (st.total + delta) % ULONG_MOD
  let min := if delta < st.min then delta else st.min
  let max := if delta > st.max then delta else st.max
  match hist_inc st.delta_hist (ilog2 delta) with
  | .error f => .error f
  | .ok hist =>
    .ok { min := min, max := max, total := total,
          i := (st.i + 1) % ULONG_MOD, delta_hist := hist }

/-- The loop body run over a sequence of samples, in order. -/
def record_samples : SourceState → List Nat → Except Fault SourceState
  | st, [] => .ok st
  | st, d :: ds =>
    match loop_body st d with
    | .error f => .error f
    | .ok st1 => record_samples st1 ds

/-! ## The timed loop -/

/-- The module parameters. -/
structure Params where
  timeout : Int
  wait : Bool
  source : Nat
  target : Nat
  delay : Nat

/-- The default values of the module parameters. -/
def default_params : Params :=
  { timeout := 10, wait := true, source := 0, target := 1, delay := 0 }

/-- What the kernel and the hardware provide to the source thread.

* `tb_ticks_per_usec`: the timebase frequency in ticks per microsecond;
* `tb_to_ns`: the conversion of a tick count to nanoseconds;
* `mftb k`: the value returned by the `k`-th call of `mftb()` in the source
  thread, `mftb 0` being the one stored in `tb_start`;
* `smp_call_function_single w k`: the content of `remote_tb` when the source
  thread reads it after its `k`-th call of `smp_call_function_single` with
  `wait = w` (with `w = false` this may be a stale value). -/
structure Platform where
  tb_ticks_per_usec : Nat
  tb_to_ns : Nat → Nat
  mftb : Nat → Nat
  smp_call_function_single : Bool → Nat → Nat

/-- The right-hand side of the loop condition,
`tb_ticks_per_usec * timeout * USEC_PER_SEC`, in `unsigned long` arithmetic. -/
def budget (p : Platform) (prm : Params) : Nat :=
  ((to_ulong p.tb_ticks_per_usec * long_to_ulong prm.timeout) % ULONG_MOD * USEC_PER_SEC)
    % ULONG_MOD

/-- The left-hand side `tb - tb_start` of the loop condition at the check
that precedes iteration `k` (iterations are counted from 0). -/
def elapsed (p : Platform) (k : Nat) : Nat := ulong_sub (p.mftb (k + 1)) (p.mftb 0)

/-- The loop condition `(tb = mftb()) - tb_start < budget` before iteration `k`. -/
def loop_cond (p : Platform) (prm : Params) (k : Nat) : Bool :=
  decide (elapsed p k < budget p prm)

/-- The sample `delta = tb_to_ns(remote_tb - tb)` of iteration `k`. -/
def sample (p : Platform) (prm : Params) (k : Nat) : Nat :=
  to_ulong (p.tb_to_ns (ulong_sub (p.smp_call_function_single prm.wait k) (p.mftb (k + 1))))

/-- The measurement loop `while ((tb = mftb()) - tb_start < ...) { ... }`,
started at iteration `k` in state `st` and run for at most `fuel` checks of
the condition. `.ok none` means that the loop is still running when the fuel
is used up, `.ok (some st)` that the condition failed in state `st`. -/
def source_loop (p : Platform) (prm : Params) :
    Nat → Nat → SourceState → Except Fault (Option SourceState)
  | 0, _, _ => .ok none
  | fuel + 1, k, st =>
    if loop_cond p prm k then
      match loop_body st (sample p prm k) with
      | .error f => .error f
      | .ok st1 => source_loop p prm fuel (k + 1) st1
    else
      .ok (some st)

/-- What the three `printk` calls after the loop print: the iteration count,
`min`, `max`, the average, and the 32 histogram lines as pairs
(`1UL << j`, `delta_hist[j]`). -/
structure Report where
  count : Nat
  min : Nat
  max : Nat
  avg : Nat
  lines : List (Nat × Nat)
  deriving DecidableEq, Repr

/-- The report printed after the loop; the average is `total / i`. -/
def print_report (st : SourceState) : Except Fault Report :=
  match ulong_div st.total st.i with
  | .error f => .error f
  | .ok avg =>
    .ok { count := st.i, min := st.min, max := st.max, avg := avg,
          lines := (List.range HIST_SIZE).map
            (fun j => (to_ulong (2 ^ j), st.delta_hist.getD j 0)) }

/-- The part of `ipistorm_source_thread` from `tb_start = mftb()` to the
last `printk`: the loop followed by the report. -/
def ipistorm_source_thread (p : Platform) (prm : Params) (fuel : Nat) :
    Except Fault (Option Report) :=
  match source_loop p prm fuel 0 source_init with
  | .error f => .error f
  | .ok none => .ok none
  | .ok (some st) =>
    match print_report st with
    | .error f => .error f
    | .ok r => .ok (some r)


/-- The samples of the `n` iterations that start at iteration `k`. -/
def samples_from (p : Platform) (prm : Params) : Nat → Nat → List Nat
  | _, 0 => []
  | k, n + 1 => sample p prm k :: samples_from p prm (k + 1) n

/-! ## Concrete platforms and parameters -/

/-- The default parameters with `timeout=0`. -/
def zero_timeout_params : Params := { default_params with timeout := 0 }

/-- The default parameters with `wait=0`. -/
def nowait_params : Params := { default_params with wait := false }

/-- The default parameters with `timeout=562949953421312` (`2 ^ 49` seconds). -/
def long_timeout_params : Params := { default_params with timeout := 562949953421312 }

/-- The default parameters with `timeout=1`. -/
def one_second_params : Params := { default_params with timeout := 1 }

/-- A platform with a 1 GHz timebase (one tick per nanosecond) whose readings
are 100 ticks apart. A call that waits returns after the handler has stored a
reading 50 ticks after `tb`; after a call that does not wait the handler has
not run yet and `remote_tb` still holds its initial value `0`. -/
def stale_platform : Platform :=
  { tb_ticks_per_usec := 1000,
    tb_to_ns := fun t => t,
    mftb := fun k => 1000000 + 100 * k,
    smp_call_function_single := fun w k => if w then 1000000 + 100 * (k + 1) + 50 else 0 }

/-- A platform with a 1 GHz timebase on which the target runs the handler
`2 ^ 32` ticks (about 4.3 s) after the source has read `tb`. -/
def slow_platform : Platform :=
  { tb_ticks_per_usec := 1000,
    tb_to_ns := fun t => t,
    mftb := fun k => 1000000 + 5000000000 * k,
    smp_call_function_single := fun _ k => 1000000 + 5000000000 * (k + 1) + 4294967296 }

/-- A platform with a 512 MHz timebase on which the first reading of the loop
condition equals `tb_start`; every call takes 500 ns. -/
def fast_platform : Platform :=
  { tb_ticks_per_usec := 512,
    tb_to_ns := fun t => t * 1000 / 512,
    mftb := fun k => 1000000 + 300 * (k - 1),
    smp_call_function_single := fun _ k => 1000000 + 300 * k + 256 }

/-- A stub platform: one tick per microsecond, readings one tick apart, and a
conversion that reports a fixed latency of 500 ns for every call. -/
def stub_platform : Platform :=
  { tb_ticks_per_usec := 1,
    tb_to_ns := fun _ => 500,
    mftb := fun k => 1000 + k,
    smp_call_function_single := fun _ k => 1000 + k + 1 }

/-! ## The two threads as an interleaved transition system -/

/-- The statement `atomic_inc(&v)` on the 32-bit counter of an `atomic_t`. -/
def atomic_inc (v : Nat) : Nat := (v + 1) % 2 ^ 32

/-- Control points of `ipistorm_source_thread`: before
`atomic_inc(&source_running)`, in the loop that waits for `target_running`,
before `tb_start = mftb()`, at the loop condition, before
`smp_call_function_single` and the rest of the loop body, before
`atomic_inc(&stop_test)`, before the report, after `return 0`, and the two
points at which the thread has left defined behaviour (in the loop body, in
the report). -/
inductive SourcePc where
  | inc_running
  | wait_target
  | read_tb_start
  | check
  | call
  | set_stop
  | report
  | returned
  | faulted_in_loop
  | faulted_in_report
  deriving DecidableEq, Repr

/-- Control points of `ipistorm_target_thread`: before
`atomic_inc(&target_running)`, in the loop that polls `stop_test`, and after
`return 0`. -/
inductive TargetPc where
  | inc_running
  | spin
  | returned
  deriving DecidableEq, Repr

/-- The shared flags, the control points of both threads and the number of
remote invocations issued so far. -/
structure System where
  stop_test : Nat
  source_running : Nat
  target_running : Nat
  spc : SourcePc
  tpc : TargetPc
  calls : Nat
  deriving DecidableEq, Repr

/-- State after both threads have been created: the static flags are zero. -/
def system_init : System :=
  { stop_test := 0, source_running := 0, target_running := 0,
    spc := .inc_running, tpc := .inc_running, calls := 0 }

/-- One step of the source thread. The boolean is what the environment
decides: at the loop condition whether the deadline has not been reached, in
the loop body and in the report whether the step stays within defined
behaviour. -/
def source_step (s : System) (env : Bool) : System :=
  match s.spc with
  | .inc_running =>
    { s with source_running := atomic_inc s.source_running, spc := .wait_target }
  | .wait_target =>
    if s.target_running ≠ 0 then { s with spc := .read_tb_start } else s
  | .read_tb_start => { s with spc := .check }
  | .check => if env then { s with spc := .call } else { s with spc := .set_stop }
  | .call =>
    if env then { s with spc := .check, calls := s.calls + 1 }
    else { s with spc := .faulted_in_loop, calls := s.calls + 1 }
  | .set_stop => { s with stop_test := atomic_inc s.stop_test, spc := .report }
  | .report =>
    if env then { s with spc := .returned } else { s with spc := .faulted_in_report }
  | .returned => s
  | .faulted_in_loop => s
  | .faulted_in_report => s

/-- One step of the target thread. -/
def target_step (s : System) : System :=
  match s.tpc with
  | .inc_running =>
    { s with target_running := atomic_inc s.target_running, tpc := .spin }
  | .spin => if s.stop_test ≠ 0 then { s with tpc := .returned } else s
  | .returned => s

/-- A scheduling decision: which thread takes the next step. -/
inductive Event where
  | source (env : Bool)
  | target
  deriving DecidableEq, Repr

/-- One step of the system. -/
def step (s : System) : Event → System
  | .source env => source_step s env
  | .target => target_step s

/-- The state reached from `s` by a schedule. -/
def run_from (s : System) (sched : List Event) : System := sched.foldl step s

/-- The state reached from the initial state by a schedule. -/
def run (sched : List Event) : System := run_from system_init sched

/-- The source thread has left the loop that waits for `target_running`. -/
def past_handshake (pc : SourcePc) : Bool :=
  match pc with
  | .inc_running => false
  | .wait_target => false
  | _ => true

/-- The source thread has executed `atomic_inc(&stop_test)`. -/
def past_stop (pc : SourcePc) : Bool :=
  match pc with
  | .report => true
  | .returned => true
  | .faulted_in_report => true
  | _ => false

/-- The relation between flags and control points that every step keeps. -/
def flags_inv (s : System) : Prop :=
  s.target_running = (if s.tpc = .inc_running then 0 else 1) ∧
  s.source_running = (if s.spc = .inc_running then 0 else 1) ∧
  s.stop_test = (if past_stop s.spc then 1 else 0) ∧
  (past_handshake s.spc = true → s.tpc ≠ .inc_running) ∧
  (s.tpc = .returned → past_stop s.spc = true) ∧
  (s.calls ≠ 0 → past_handshake s.spc = true)

/-! ## Lemmas on `ilog2` -/

theorem fls_go_zero (fuel : Nat) : fls_go fuel 0 = 0 := by
  cases fuel <;> simp [fls_go]

theorem fls_go_eq (fuel : Nat) : ∀ k n : Nat, 2 ^ k ≤ n → n < 2 ^ (k + 1) → k < fuel →
    fls_go fuel n = k + 1 := by
  induction fuel with
  | zero => intro k n _ _ h; omega
  | succ fuel ih =>
    intro k n hlo hhi hk
    have hpos : 0 < 2 ^ k := Nat.pow_pos (by decide)
    have hn : n ≠ 0 := by omega
    cases k with
    | zero =>
      have h1 : n = 1 := by simp at hlo hhi; omega
      subst h1
      simp [fls_go, fls_go_zero]
    | succ k =>
      have h2 : 2 ^ k ≤ n / 2 := by
        rw [Nat.le_div_iff_mul_le (by decide)]
        rw [pow_succ] at hlo; exact hlo
      have h3 : n / 2 < 2 ^ (k + 1) := by
        rw [Nat.div_lt_iff_lt_mul (by decide)]
        rw [pow_succ] at hhi; exact hhi
      simp [fls_go, hn, ih k (n / 2) h2 h3 (by omega)]

theorem fls_go_ge (fuel : Nat) : ∀ k n : Nat, 2 ^ k ≤ n → k < fuel →
    k + 1 ≤ fls_go fuel n := by
  induction fuel with
  | zero => intro k n _ h; omega
  | succ fuel ih =>
    intro k n hlo hk
    have hpos : 0 < 2 ^ k := Nat.pow_pos (by decide)
    have hn : n ≠ 0 := by omega
    cases k with
    | zero => simp [fls_go, hn]
    | succ k =>
      have h2 : 2 ^ k ≤ n / 2 := by
        rw [Nat.le_div_iff_mul_le (by decide)]
        rw [pow_succ] at hlo; exact hlo
      have := ih k (n / 2) h2 (by omega)
      simp [fls_go, hn]; omega

/-- On a positive 64-bit value `ilog2` is the floor of the binary logarithm. -/
theorem ilog2_eq (k n : Nat) (hk : k < 64) (hlo : 2 ^ k ≤ n) (hhi : n < 2 ^ (k + 1)) :
    ilog2 n = (k : Int) := by
  unfold ilog2 fls64
  rw [fls_go_eq 64 k n hlo hhi hk]
  push_cast; ring

theorem ilog2_eq_log (n : Nat) (h1 : 1 ≤ n) (h2 : n < 2 ^ 64) :
    ilog2 n = (Nat.log 2 n : Int) := by
  have hn : n ≠ 0 := by omega
  have hlt : Nat.log 2 n < 64 := Nat.log_lt_of_lt_pow hn h2
  exact ilog2_eq _ n hlt (Nat.pow_log_le_self 2 hn) (Nat.lt_pow_succ_log_self (by decide) n)

/-- The index `ilog2 d` lies in `0 .. 31` exactly for `1 ≤ d < 2 ^ 32`. -/
theorem ilog2_in_bounds_iff (d : Nat) :
    (0 ≤ ilog2 d ∧ ilog2 d < (HIST_SIZE : Int)) ↔ (1 ≤ d ∧ d < 2 ^ 32) := by
  constructor
  · rintro ⟨h0, h1⟩
    constructor
    · by_contra hd
      have : d = 0 := by omega
      subst this
      revert h0; decide
    · by_contra hd
      have := fls_go_ge 64 32 d (by omega) (by decide)
      unfold ilog2 fls64 HIST_SIZE at h1
      omega
  · rintro ⟨h1, h2⟩
    have hn : d ≠ 0 := by omega
    have hlt : Nat.log 2 d < 32 := Nat.log_lt_of_lt_pow hn h2
    rw [ilog2_eq_log d h1 (lt_trans h2 (by decide))]
    unfold HIST_SIZE
    omega

/-! ## Lemmas on the loop body -/

/-- The loop body on a sample in `1 ≤ d < 2 ^ 32`. -/
theorem loop_body_in_range (st : SourceState) (d : Nat) (h1 : 1 ≤ d) (h2 : d < 2 ^ 32) :
    loop_body st d = .ok
      { min := if d < st.min then d else st.min,
        max := if d > st.max then d else st.max,
        total := (st.total + d) % ULONG_MOD,
        i := (st.i + 1) % ULONG_MOD,
        delta_hist := st.delta_hist.set (Nat.log 2 d)
          ((st.delta_hist.getD (Nat.log 2 d) 0 + 1) % ULONG_MOD) } := by
  have hb := (ilog2_in_bounds_iff d).2 ⟨h1, h2⟩
  have hl := ilog2_eq_log d h1 (lt_trans h2 (by decide))
  unfold loop_body hist_inc
  rw [if_pos hb, hl]
  simp

/-- The loop body faults exactly on the samples outside `1 ≤ d < 2 ^ 32`. -/
theorem loop_body_out_of_range (st : SourceState) (d : Nat) (h : ¬ (1 ≤ d ∧ d < 2 ^ 32)) :
    loop_body st d = .error (.out_of_bounds (ilog2 d)) := by
  have hb : ¬ (0 ≤ ilog2 d ∧ ilog2 d < (HIST_SIZE : Int)) :=
    fun hb => h ((ilog2_in_bounds_iff d).1 hb)
  unfold loop_body hist_inc
  rw [if_neg hb]

theorem loop_body_ok_range (st st1 : SourceState) (d : Nat) (h : loop_body st d = .ok st1) :
    1 ≤ d ∧ d < 2 ^ 32 := by
  by_contra hr
  rw [loop_body_out_of_range st d hr] at h
  cases h

theorem loop_body_ok_eq (st st1 : SourceState) (d : Nat) (h : loop_body st d = .ok st1) :
    st1 = { min := if d < st.min then d else st.min,
            max := if d > st.max then d else st.max,
            total := (st.total + d) % ULONG_MOD,
            i := (st.i + 1) % ULONG_MOD,
            delta_hist := st.delta_hist.set (Nat.log 2 d)
              ((st.delta_hist.getD (Nat.log 2 d) 0 + 1) % ULONG_MOD) } := by
  obtain ⟨h1, h2⟩ := loop_body_ok_range st st1 d h
  rw [loop_body_in_range st d h1 h2] at h
  cases h
  rfl

/-! ## Lemmas on a sequence of samples -/

theorem record_samples_cons_ok (st st2 : SourceState) (d : Nat) (ds : List Nat)
    (h : record_samples st (d :: ds) = .ok st2) :
    ∃ st1, loop_body st d = .ok st1 ∧ record_samples st1 ds = .ok st2 := by
  unfold record_samples at h
  cases hb : loop_body st d with
  | error f => rw [hb] at h; cases h
  | ok st1 => rw [hb] at h; exact ⟨st1, rfl, h⟩

/-- The sequence is processed without fault exactly when every sample lies in
`1 ≤ d < 2 ^ 32`. -/
theorem record_samples_ok_iff (ds : List Nat) : ∀ st : SourceState,
    (∃ st2, record_samples st ds = .ok st2) ↔ ∀ d ∈ ds, 1 ≤ d ∧ d < 2 ^ 32 := by
  induction ds with
  | nil => intro st; simp [record_samples]
  | cons d ds ih =>
    intro st
    constructor
    · rintro ⟨st2, h⟩
      obtain ⟨st1, hb, hr⟩ := record_samples_cons_ok st st2 d ds h
      intro x hx
      rcases List.mem_cons.1 hx with rfl | hx
      · exact loop_body_ok_range st st1 x hb
      · exact (ih st1).1 ⟨st2, hr⟩ x hx
    · intro hall
      obtain ⟨h1, h2⟩ := hall d (List.mem_cons_self d ds)
      obtain ⟨st2, hr⟩ := (ih _).2 (fun x hx => hall x (List.mem_cons_of_mem d hx))
      refine ⟨st2, ?_⟩
      unfold record_samples
      rw [loop_body_in_range st d h1 h2]
      exact hr

theorem record_samples_total (ds : List Nat) : ∀ st st2 : SourceState,
    record_samples st ds = .ok st2 → st2.total % ULONG_MOD = (st.total + ds.sum) % ULONG_MOD := by
  induction ds with
  | nil => intro st st2 h; simp [record_samples] at h; subst h; simp
  | cons d ds ih =>
    intro st st2 h
    obtain ⟨st1, hb, hr⟩ := record_samples_cons_ok st st2 d ds h
    have h1 := loop_body_ok_eq st st1 d hb
    rw [ih st1 st2 hr, h1]
    simp only [List.sum_cons]
    rw [Nat.add_mod, Nat.mod_mod, ← Nat.add_mod, Nat.add_assoc]

theorem record_samples_total_lt (ds : List Nat) : ∀ st st2 : SourceState,
    record_samples st ds = .ok st2 → st.total < ULONG_MOD → st2.total < ULONG_MOD := by
  induction ds with
  | nil => intro st st2 h; simp [record_samples] at h; subst h; exact id
  | cons d ds ih =>
    intro st st2 h _
    obtain ⟨st1, hb, hr⟩ := record_samples_cons_ok st st2 d ds h
    have h1 := loop_body_ok_eq st st1 d hb
    apply ih st1 st2 hr
    rw [h1]
    exact Nat.mod_lt _ (by decide)

theorem record_samples_count (ds : List Nat) : ∀ st st2 : SourceState,
    record_samples st ds = .ok st2 → st2.i % ULONG_MOD = (st.i + ds.length) % ULONG_MOD := by
  induction ds with
  | nil => intro st st2 h; simp [record_samples] at h; subst h; simp
  | cons d ds ih =>
    intro st st2 h
    obtain ⟨st1, hb, hr⟩ := record_samples_cons_ok st st2 d ds h
    have h1 := loop_body_ok_eq st st1 d hb
    rw [ih st1 st2 hr, h1]
    simp only [List.length_cons]
    rw [Nat.add_mod, Nat.mod_mod, ← Nat.add_mod]
    congr 1; omega

theorem record_samples_count_lt (ds : List Nat) : ∀ st st2 : SourceState,
    record_samples st ds = .ok st2 → st.i < ULONG_MOD → st2.i < ULONG_MOD := by
  induction ds with
  | nil => intro st st2 h; simp [record_samples] at h; subst h; exact id
  | cons d ds ih =>
    intro st st2 h _
    obtain ⟨st1, hb, hr⟩ := record_samples_cons_ok st st2 d ds h
    have h1 := loop_body_ok_eq st st1 d hb
    apply ih st1 st2 hr
    rw [h1]
    exact Nat.mod_lt _ (by decide)

theorem record_samples_min (ds : List Nat) : ∀ st st2 : SourceState,
    record_samples st ds = .ok st2 →
      st2.min ≤ st.min ∧ (∀ d ∈ ds, st2.min ≤ d) ∧ (st2.min = st.min ∨ st2.min ∈ ds) := by
  induction ds with
  | nil => intro st st2 h; simp [record_samples] at h; subst h; simp
  | cons d ds ih =>
    intro st st2 h
    obtain ⟨st1, hb, hr⟩ := record_samples_cons_ok st st2 d ds h
    have h1 := loop_body_ok_eq st st1 d hb
    obtain ⟨a, b, c⟩ := ih st1 st2 hr
    have hm : st1.min = if d < st.min then d else st.min := by rw [h1]
    refine ⟨?_, ?_, ?_⟩
    · split_ifs at hm <;> omega
    · intro x hx
      rcases List.mem_cons.1 hx with rfl | hx
      · split_ifs at hm <;> omega
      · exact b x hx
    · rcases c with c | c
      · split_ifs at hm with hlt
        · right; rw [c, hm]; exact List.mem_cons_self _ _
        · left; rw [c, hm]
      · right; exact List.mem_cons_of_mem _ c

theorem record_samples_max (ds : List Nat) : ∀ st st2 : SourceState,
    record_samples st ds = .ok st2 →
      st.max ≤ st2.max ∧ (∀ d ∈ ds, d ≤ st2.max) ∧ (st2.max = st.max ∨ st2.max ∈ ds) := by
  induction ds with
  | nil => intro st st2 h; simp [record_samples] at h; subst h; simp
  | cons d ds ih =>
    intro st st2 h
    obtain ⟨st1, hb, hr⟩ := record_samples_cons_ok st st2 d ds h
    have h1 := loop_body_ok_eq st st1 d hb
    obtain ⟨a, b, c⟩ := ih st1 st2 hr
    have hm : st1.max = if d > st.max then d else st.max := by rw [h1]
    refine ⟨?_, ?_, ?_⟩
    · split_ifs at hm <;> omega
    · intro x hx
      rcases List.mem_cons.1 hx with rfl | hx
      · split_ifs at hm <;> omega
      · exact b x hx
    · rcases c with c | c
      · split_ifs at hm with hlt
        · right; rw [c, hm]; exact List.mem_cons_self _ _
        · left; rw [c, hm]
      · right; exact List.mem_cons_of_mem _ c

/-! ## The timed loop as a run over its samples -/


theorem samples_from_length (p : Platform) (prm : Params) (n : Nat) :
    ∀ k, (samples_from p prm k n).length = n := by
  induction n with
  | zero => intro k; rfl
  | succ n ih => intro k; simp [samples_from, ih]

theorem samples_from_mem (p : Platform) (prm : Params) (n : Nat) :
    ∀ k d, d ∈ samples_from p prm k n → ∃ j, k ≤ j ∧ j < k + n ∧ d = sample p prm j := by
  induction n with
  | zero => intro k d h; simp [samples_from] at h
  | succ n ih =>
    intro k d h
    simp only [samples_from, List.mem_cons] at h
    rcases h with h | h
    · exact ⟨k, le_refl k, by omega, h⟩
    · obtain ⟨j, h1, h2, h3⟩ := ih (k + 1) d h
      exact ⟨j, by omega, by omega, h3⟩

/-- When the condition holds before the `n` iterations that start at `k` and
fails at the next check, the loop is the loop body run over the samples of
these iterations. -/
theorem source_loop_exit (p : Platform) (prm : Params) (n : Nat) :
    ∀ (k fuel : Nat) (st : SourceState),
      (∀ j, j < n → loop_cond p prm (k + j) = true) →
      loop_cond p prm (k + n) = false → n < fuel →
      source_loop p prm fuel k st =
        match record_samples st (samples_from p prm k n) with
        | .error f => .error f
        | .ok st2 => .ok (some st2) := by
  induction n with
  | zero =>
    intro k fuel st _ hex hf
    obtain ⟨fuel, rfl⟩ : ∃ m, fuel = m + 1 := ⟨fuel - 1, by omega⟩
    simp only [Nat.add_zero] at hex
    simp [source_loop, hex, samples_from, record_samples]
  | succ n ih =>
    intro k fuel st hc hex hf
    obtain ⟨fuel, rfl⟩ : ∃ m, fuel = m + 1 := ⟨fuel - 1, by omega⟩
    have h0 : loop_cond p prm k = true := by simpa using hc 0 (by omega)
    simp only [source_loop, h0, if_true, samples_from, record_samples]
    cases hb : loop_body st (sample p prm k) with
    | error f => rfl
    | ok st1 =>
      simp only []
      apply ih (k + 1) fuel st1
      · intro j hj
        have := hc (j + 1) (by omega)
        rwa [show k + 1 + j = k + (j + 1) by omega]
      · rwa [show k + 1 + n = k + (n + 1) by omega]
      · omega

/-- While the condition holds and the fuel lasts, the loop keeps running,
provided the samples of the iterations it executes lie in `1 ≤ d < 2 ^ 32`. -/
theorem source_loop_running (p : Platform) (prm : Params) (fuel : Nat) :
    ∀ (k : Nat) (st : SourceState),
      (∀ j, j < fuel → loop_cond p prm (k + j) = true) →
      (∀ j, j < fuel → 1 ≤ sample p prm (k + j) ∧ sample p prm (k + j) < 2 ^ 32) →
      source_loop p prm fuel k st = .ok none := by
  induction fuel with
  | zero => intro k st _ _; rfl
  | succ fuel ih =>
    intro k st hc hs
    have h0 : loop_cond p prm k = true := by simpa using hc 0 (by omega)
    have hs0 : 1 ≤ sample p prm k ∧ sample p prm k < 2 ^ 32 := by
      simpa using hs 0 (by omega)
    simp only [source_loop, h0, if_true]
    rw [loop_body_in_range st _ hs0.1 hs0.2]
    simp only []
    apply ih (k + 1)
    · intro j hj
      have := hc (j + 1) (by omega)
      rwa [show k + 1 + j = k + (j + 1) by omega]
    · intro j hj
      have := hs (j + 1) (by omega)
      rwa [show k + 1 + j = k + (j + 1) by omega]

/-- Once the condition has failed at a check that the fuel covers, the loop
is no longer running: it has ended or faulted. -/
theorem source_loop_not_running (p : Platform) (prm : Params) (n k fuel : Nat)
    (st : SourceState) (hc : ∀ j, j < n → loop_cond p prm (k + j) = true)
    (hex : loop_cond p prm (k + n) = false) (hf : n < fuel) :
    source_loop p prm fuel k st ≠ .ok none := by
  rw [source_loop_exit p prm n k fuel st hc hex hf]
  cases record_samples st (samples_from p prm k n) with
  | error f => intro h; cases h
  | ok st2 => intro h; cases h

theorem budget_lt (p : Platform) (prm : Params) : budget p prm < ULONG_MOD :=
  Nat.mod_lt _ (by decide)

theorem ulong_sub_of_le (a b : Nat) (hab : b ≤ a) (ha : a < ULONG_MOD) :
    ulong_sub a b = a - b := by
  unfold ulong_sub to_ulong
  rw [Nat.mod_eq_of_lt ha, Nat.mod_eq_of_lt (lt_of_le_of_lt hab ha)]
  have : a + ULONG_MOD - b = (a - b) + ULONG_MOD := by omega
  rw [this, Nat.add_mod_right, Nat.mod_eq_of_lt (by omega)]

/-- Readings that strictly increase up to index `m` grow by at least one tick
per reading. -/
theorem mftb_growth (f : Nat → Nat) (m : Nat) (hmono : ∀ k, k < m → f k < f (k + 1)) :
    ∀ k, k ≤ m → f 0 + k ≤ f k := by
  intro k
  induction k with
  | zero => intro _; simp
  | succ k ih =>
    intro hk
    have := ih (by omega)
    have := hmono k (by omega)
    omega

/-- The loop ends in `.ok (some st2)` only by a failing condition after
fewer iterations than the fuel allows. -/
theorem source_loop_some (p : Platform) (prm : Params) (fuel : Nat) :
    ∀ (k : Nat) (st st2 : SourceState),
      source_loop p prm fuel k st = .ok (some st2) →
      ∃ n, n < fuel ∧ (∀ j, j < n → loop_cond p prm (k + j) = true) ∧
        loop_cond p prm (k + n) = false ∧
        record_samples st (samples_from p prm k n) = .ok st2 := by
  induction fuel with
  | zero => intro k st st2 h; simp [source_loop] at h
  | succ fuel ih =>
    intro k st st2 h
    unfold source_loop at h
    cases hc : loop_cond p prm k with
    | false =>
      rw [hc] at h
      simp only [Bool.false_eq_true, if_false] at h
      cases h
      exact ⟨0, by omega, fun j hj => by omega, by simpa using hc, rfl⟩
    | true =>
      rw [hc] at h
      simp only [if_true] at h
      cases hb : loop_body st (sample p prm k) with
      | error f => rw [hb] at h; cases h
      | ok st1 =>
        rw [hb] at h
        obtain ⟨n, hn, hcs, hex, hr⟩ := ih (k + 1) st1 st2 h
        refine ⟨n + 1, by omega, ?_, ?_, ?_⟩
        · intro j hj
          cases j with
          | zero => simpa using hc
          | succ j =>
            have := hcs j (by omega)
            rwa [show k + 1 + j = k + (j + 1) by omega] at this
        · rwa [show k + 1 + n = k + (n + 1) by omega] at hex
        · simp only [samples_from, record_samples, hb]
          exact hr

theorem thread_of_loop (p : Platform) (prm : Params) (fuel : Nat) (st : SourceState)
    (h : source_loop p prm fuel 0 source_init = .ok (some st)) :
    ipistorm_source_thread p prm fuel =
      match print_report st with
      | .error f => .error f
      | .ok r => .ok (some r) := by
  unfold ipistorm_source_thread
  rw [h]

theorem ulong_sub_self (a : Nat) : ulong_sub a a = 0 := by
  unfold ulong_sub
  have h : to_ulong a < ULONG_MOD := Nat.mod_lt _ (by decide)
  have : to_ulong a + ULONG_MOD - to_ulong a = ULONG_MOD := by omega
  rw [this, Nat.mod_self]

theorem long_to_ulong_zero : long_to_ulong 0 = 0 := by
  simp [long_to_ulong]

/-- Without overflow the tick budget is the product itself. -/
theorem budget_eq (p : Platform) (prm : Params) (ht : 0 ≤ prm.timeout)
    (hfit : (p.tb_ticks_per_usec : Int) * prm.timeout * 1000000 < 2 ^ 64) :
    budget p prm = p.tb_ticks_per_usec * prm.timeout.toNat * 1000000 := by
  obtain ⟨t, ht2⟩ := Int.eq_ofNat_of_zero_le ht
  have hnat : p.tb_ticks_per_usec * t * 1000000 < 2 ^ 64 := by
    rw [ht2] at hfit
    exact_mod_cast hfit
  unfold budget
  rw [ht2, Int.toNat_ofNat]
  have hM : ULONG_MOD = 2 ^ 64 := rfl
  by_cases hr : p.tb_ticks_per_usec = 0
  · simp [hr, to_ulong]
  · by_cases hz : t = 0
    · subst hz
      simp [long_to_ulong_zero]
    · have hpos1 : 1 ≤ p.tb_ticks_per_usec := by omega
      have hpos2 : 1 ≤ t := by omega
      have h1 : p.tb_ticks_per_usec * t < 2 ^ 64 := by nlinarith
      have h2 : p.tb_ticks_per_usec < 2 ^ 64 := by nlinarith
      have h3 : t < 2 ^ 64 := by nlinarith
      have e1 : to_ulong p.tb_ticks_per_usec = p.tb_ticks_per_usec := by
        unfold to_ulong; rw [hM]; exact Nat.mod_eq_of_lt h2
      have e2 : long_to_ulong (t : Int) = t := by
        unfold long_to_ulong
        rw [hM]
        have : ((t : Int) % ((2 ^ 64 : Nat) : Int)) = ((t % 2 ^ 64 : Nat) : Int) := by
          push_cast; rfl
        rw [this, Int.toNat_ofNat, Nat.mod_eq_of_lt h3]
      rw [e1, e2, hM, Nat.mod_eq_of_lt h1, USEC_PER_SEC, Nat.mod_eq_of_lt hnat]

theorem getD_set_same (l : List Nat) (i v : Nat) (h : i < l.length) :
    (l.set i v).getD i 0 = v := by
  simp [List.getD_eq_getElem?_getD, List.getElem?_set, h]

theorem getD_set_other (l : List Nat) (i j v : Nat) (h : j ≠ i) :
    (l.set i v).getD j 0 = l.getD j 0 := by
  simp [List.getD_eq_getElem?_getD, List.getElem?_set, Ne.symm h]

/-- C3: for every `i` in `0 .. 31` and every sample `delta` with
`2 ^ i ≤ delta < 2 ^ (i + 1)`, one pass through the loop body succeeds,
increments `delta_hist[i]` by one (in `unsigned long` arithmetic, so by
exactly one unless the counter holds `~0UL`) and leaves every other bucket
unchanged. -/
theorem loop_body_increments_bucket (i delta : Nat) (st : SourceState)
    (hi : i < 32) (hlo : 2 ^ i ≤ delta) (hhi : delta < 2 ^ (i + 1))
    (hlen : st.delta_hist.length = 32) :
    ∃ st1, loop_body st delta = .ok st1 ∧
      st1.delta_hist.length = 32 ∧
      st1.delta_hist.getD i 0 = (st.delta_hist.getD i 0 + 1) % ULONG_MOD ∧
      (st.delta_hist.getD i 0 < ULONG_MAX →
        st1.delta_hist.getD i 0 = st.delta_hist.getD i 0 + 1) ∧
      ∀ j, j ≠ i → st1.delta_hist.getD j 0 = st.delta_hist.getD j 0 := by
  have hpos : 0 < 2 ^ i := Nat.pow_pos (by decide)
  have h1 : 1 ≤ delta := by omega
  have h2 : delta < 2 ^ 32 :=
    lt_of_lt_of_le hhi (Nat.pow_le_pow_right (by decide) (by omega))
  have hlog : Nat.log 2 delta = i := by
    have e1 := ilog2_eq i delta (by omega) hlo hhi
    have e2 := ilog2_eq_log delta h1 (lt_trans h2 (by decide))
    omega
  refine ⟨_, loop_body_in_range st delta h1 h2, ?_, ?_, ?_, ?_⟩
  · simp [hlen]
  · simp only [hlog]
    exact getD_set_same _ _ _ (by omega)
  · intro hsat
    simp only [hlog]
    rw [getD_set_same _ _ _ (by omega)]
    apply Nat.mod_eq_of_lt
    unfold ULONG_MAX at hsat
    omega
  · intro j hj
    simp only [hlog]
    exact getD_set_other _ _ _ _ hj

/-- Witness for C3: from the initial state a sample of 1 ns is counted in
bucket 0 and a sample of 500 ns in bucket 8. -/
theorem loop_body_increments_bucket_witness :
    (∃ st1, loop_body source_init 1 = .ok st1 ∧
      st1.delta_hist.length = 32 ∧
      st1.delta_hist.getD 0 0 = (source_init.delta_hist.getD 0 0 + 1) % ULONG_MOD ∧
      (source_init.delta_hist.getD 0 0 < ULONG_MAX →
        st1.delta_hist.getD 0 0 = source_init.delta_hist.getD 0 0 + 1) ∧
      ∀ j, j ≠ 0 → st1.delta_hist.getD j 0 = source_init.delta_hist.getD j 0) ∧
    (∃ st1, loop_body source_init 500 = .ok st1 ∧
      st1.delta_hist.length = 32 ∧
      st1.delta_hist.getD 8 0 = (source_init.delta_hist.getD 8 0 + 1) % ULONG_MOD ∧
      (source_init.delta_hist.getD 8 0 < ULONG_MAX →
        st1.delta_hist.getD 8 0 = source_init.delta_hist.getD 8 0 + 1) ∧
      ∀ j, j ≠ 8 → st1.delta_hist.getD j 0 = source_init.delta_hist.getD j 0) :=
  ⟨loop_body_increments_bucket 0 1 source_init (by decide) (by decide) (by decide) rfl,
   loop_body_increments_bucket 8 500 source_init (by decide) (by decide) (by decide) rfl⟩

/-- C4: a non-empty sequence of samples is processed by the loop exactly when
every sample lies in `1 ≤ d < 2 ^ 32`, and then, starting from `min = ~0UL`
and `max = 0`, the final `min` is the smallest sample and the final `max` the
largest: both are samples, `min ≤ d ≤ max` for every sample `d`, and
`min ≤ max`. -/
theorem min_max_of_samples (samples : List Nat) (hne : samples ≠ []) :
    ((∀ d ∈ samples, 1 ≤ d ∧ d < 2 ^ 32) ↔
        ∃ st, record_samples source_init samples = .ok st) ∧
    ∀ st, record_samples source_init samples = .ok st →
      st.min ∈ samples ∧ st.max ∈ samples ∧
      (∀ d ∈ samples, st.min ≤ d ∧ d ≤ st.max) ∧ st.min ≤ st.max := by
  refine ⟨(record_samples_ok_iff samples source_init).symm, ?_⟩
  intro st h
  have hr := (record_samples_ok_iff samples source_init).1 ⟨st, h⟩
  obtain ⟨_, hmin, hminmem⟩ := record_samples_min samples source_init st h
  obtain ⟨_, hmax, hmaxmem⟩ := record_samples_max samples source_init st h
  obtain ⟨d0, hd0⟩ := List.exists_mem_of_ne_nil samples hne
  have hd0r := hr d0 hd0
  refine ⟨?_, ?_, fun d hd => ⟨hmin d hd, hmax d hd⟩, le_trans (hmin d0 hd0) (hmax d0 hd0)⟩
  · rcases hminmem with hm | hm
    · exfalso
      have h1 := hmin d0 hd0
      rw [hm] at h1
      have h2 : source_init.min = 2 ^ 64 - 1 := rfl
      have h3 : (2 : Nat) ^ 32 < 2 ^ 64 - 1 := by decide
      omega
    · exact hm
  · rcases hmaxmem with hm | hm
    · exfalso
      have h1 := hmax d0 hd0
      rw [hm] at h1
      have h2 : source_init.max = 0 := rfl
      omega
    · exact hm

/-- Witness for C4: the samples 500, 3 and 70000. -/
theorem min_max_of_samples_witness :
    ∃ st, record_samples source_init [500, 3, 70000] = .ok st ∧ st.min = 3 ∧ st.max = 70000 ∧
      st.min ∈ [500, 3, 70000] ∧ st.max ∈ [500, 3, 70000] ∧
      (∀ d ∈ [500, 3, 70000], st.min ≤ d ∧ d ≤ st.max) ∧ st.min ≤ st.max :=
  ⟨_, rfl, rfl, rfl,
    (min_max_of_samples [500, 3, 70000] (by decide)).2 _ rfl⟩

theorem print_report_ok (st : SourceState) (h : st.i ≠ 0) :
    print_report st = .ok
      { count := st.i, min := st.min, max := st.max, avg := st.total / st.i,
        lines := (List.range HIST_SIZE).map
          (fun j => (to_ulong (2 ^ j), st.delta_hist.getD j 0)) } := by
  simp [print_report, ulong_div, h]

theorem length_le_sum (ds : List Nat) (h : ∀ d ∈ ds, 1 ≤ d) : ds.length ≤ ds.sum := by
  induction ds with
  | nil => simp
  | cons d ds ih =>
    have h1 := h d (List.mem_cons_self d ds)
    have h2 := ih (fun x hx => h x (List.mem_cons_of_mem d hx))
    simp only [List.length_cons, List.sum_cons]
    omega

/-- C5 (amended): for every non-empty sequence of samples in
`1 ≤ d < 2 ^ 32` the loop ends in a state whose `total` is the sum of the
samples modulo `2 ^ 64` and whose `i` is their number modulo `2 ^ 64`; when
`i` is not zero the average in the report is `total / i` rounded down; and when the
sum is below `2 ^ 64`, `total` is the sum itself, `i` the number of samples
and the average the sum divided by that number, rounded down. -/
theorem total_and_average (samples : List Nat) (hne : samples ≠ [])
    (hr : ∀ d ∈ samples, 1 ≤ d ∧ d < 2 ^ 32) :
    ∃ st, record_samples source_init samples = .ok st ∧
      st.total = samples.sum % ULONG_MOD ∧
      st.i = samples.length % ULONG_MOD ∧
      (st.i ≠ 0 → ∃ r, print_report st = .ok r ∧ r.count = st.i ∧
        r.avg = st.total / st.i) ∧
      (samples.sum < ULONG_MOD →
        st.total = samples.sum ∧ st.i = samples.length ∧
        ∃ r, print_report st = .ok r ∧ r.count = samples.length ∧
          r.avg = samples.sum / samples.length) := by
  obtain ⟨st, h⟩ := (record_samples_ok_iff samples source_init).2 hr
  have ht := record_samples_total samples source_init st h
  have htl := record_samples_total_lt samples source_init st h (by decide)
  have hc := record_samples_count samples source_init st h
  have hcl := record_samples_count_lt samples source_init st h (by decide)
  rw [Nat.mod_eq_of_lt htl] at ht
  rw [Nat.mod_eq_of_lt hcl] at hc
  have ht0 : source_init.total = 0 := rfl
  have hc0 : source_init.i = 0 := rfl
  rw [ht0, Nat.zero_add] at ht
  rw [hc0, Nat.zero_add] at hc
  refine ⟨st, h, ht, hc, ?_, ?_⟩
  · intro hi
    exact ⟨_, print_report_ok st hi, rfl, rfl⟩
  · intro hsum
    have hlen := length_le_sum samples (fun d hd => (hr d hd).1)
    have hpos : 0 < samples.length := List.length_pos.2 hne
    have ht2 : st.total = samples.sum := by rw [ht, Nat.mod_eq_of_lt hsum]
    have hc2 : st.i = samples.length := by
      rw [hc, Nat.mod_eq_of_lt (lt_of_le_of_lt hlen hsum)]
    refine ⟨ht2, hc2, _, print_report_ok st (by omega), hc2, ?_⟩
    simp only [ht2, hc2]

/-- Witness for C5: three samples of 500 ns; `total` is 1500 and the average 500. -/
theorem total_and_average_witness :
    ∃ st, record_samples source_init [500, 500, 500] = .ok st ∧
      st.total = [500, 500, 500].sum % ULONG_MOD ∧
      st.i = [500, 500, 500].length % ULONG_MOD ∧
      (st.i ≠ 0 → ∃ r, print_report st = .ok r ∧ r.count = st.i ∧
        r.avg = st.total / st.i) ∧
      ([500, 500, 500].sum < ULONG_MOD →
        st.total = [500, 500, 500].sum ∧ st.i = [500, 500, 500].length ∧
        ∃ r, print_report st = .ok r ∧ r.count = [500, 500, 500].length ∧
          r.avg = [500, 500, 500].sum / [500, 500, 500].length) :=
  total_and_average [500, 500, 500] (by decide) (by decide)

/-- C5, counterexample to the claim as stated: `2 ^ 33` samples of `2 ^ 31`
nanoseconds each are processed without fault, their sum is `2 ^ 64`, and the
accumulator `total` ends at `0`. -/
theorem total_wraps :
    ∃ st, record_samples source_init (List.replicate (2 ^ 33) (2 ^ 31)) = .ok st ∧
      st.total = 0 ∧ (List.replicate (2 ^ 33) (2 ^ 31)).sum = 2 ^ 64 ∧
      st.total ≠ (List.replicate (2 ^ 33) (2 ^ 31)).sum := by
  have hr : ∀ d ∈ List.replicate (2 ^ 33) (2 ^ 31), 1 ≤ d ∧ d < 2 ^ 32 := by
    intro d hd
    rw [List.eq_of_mem_replicate hd]
    decide
  have hsum : (List.replicate (2 ^ 33) (2 ^ 31)).sum = 2 ^ 64 := by
    rw [List.sum_replicate, smul_eq_mul]
    rfl
  obtain ⟨st, h⟩ := (record_samples_ok_iff _ source_init).2 hr
  have ht := record_samples_total _ source_init st h
  have htl := record_samples_total_lt _ source_init st h (by decide)
  rw [Nat.mod_eq_of_lt htl, hsum] at ht
  have ht0 : st.total = 0 := by rw [ht]; rfl
  refine ⟨st, h, ht0, hsum, ?_⟩
  rw [ht0, hsum]
  decide

/-- C7: one sample of 3 ns. Histogram line 1, labelled `ns < 2`, reports one
sample although no sample is below 2 ns, and line 2, labelled `ns < 4`,
reports none although one sample is below 4 ns. -/
theorem histogram_line_is_bucket_count :
    ∃ st r, record_samples source_init [3] = .ok st ∧ print_report st = .ok r ∧
      r.lines[1]? = some (2, 1) ∧ ([3].filter (fun d => decide (d < 2))).length = 0 ∧
      r.lines[2]? = some (4, 0) ∧ ([3].filter (fun d => decide (d < 4))).length = 1 :=
  ⟨_, _, rfl, rfl, rfl, rfl, rfl, rfl⟩

/-! ## Out-of-range samples and the empty run -/

/-- C1: two runs on which the loop leaves the array. With `wait=0` the first
sample is computed from the initial `remote_tb = 0`, has `ilog2` 63, and the
histogram update accesses `delta_hist[63]`; with `wait=1` and a handler that
runs `2 ^ 32` ns after `tb`, the sample is `2 ^ 32` and the update accesses
`delta_hist[32]`. In both runs an iteration is executed whose sample is
counted in none of the 32 buckets. -/
theorem out_of_range_sample_leaves_histogram :
    sample stale_platform nowait_params 0 = 2 ^ 64 - 1000100 ∧
    ipistorm_source_thread stale_platform nowait_params 2 = .error (.out_of_bounds 63) ∧
    sample slow_platform default_params 0 = 2 ^ 32 ∧
    ipistorm_source_thread slow_platform default_params 2 = .error (.out_of_bounds 32) :=
  ⟨rfl, rfl, rfl, rfl⟩

/-- C2: the index computed for a sample of `2 ^ 32` ns is 32 and the one for
the largest 64-bit sample is 63; for a sample of 0 the modelled `ilog2` gives
-1. In each case the loop body accesses `delta_hist` outside `0 .. 31`: the
code neither clamps the index nor rejects the sample. -/
theorem histogram_index_not_clamped :
    ilog2 (2 ^ 32) = 32 ∧
    loop_body source_init (2 ^ 32) = .error (.out_of_bounds 32) ∧
    loop_body source_init (2 ^ 64 - 1) = .error (.out_of_bounds 63) ∧
    loop_body source_init 0 = .error (.out_of_bounds (-1)) :=
  ⟨rfl, rfl, rfl, rfl⟩

theorem budget_zero_timeout (p : Platform) : budget p zero_timeout_params = 0 := by
  unfold budget
  have h : zero_timeout_params.timeout = 0 := rfl
  rw [h, long_to_ulong_zero, Nat.mul_zero, Nat.zero_mod, Nat.zero_mul, Nat.zero_mod]

theorem loop_zero_timeout (p : Platform) (fuel : Nat) :
    source_loop p zero_timeout_params (fuel + 1) 0 source_init = .ok (some source_init) := by
  have hc : loop_cond p zero_timeout_params 0 = false := by
    unfold loop_cond
    rw [budget_zero_timeout]
    simp
  unfold source_loop
  rw [hc]
  simp

theorem print_report_init : print_report source_init = .error .div_by_zero := rfl

theorem thread_zero_timeout (p : Platform) (fuel : Nat) :
    ipistorm_source_thread p zero_timeout_params (fuel + 1) = .error .div_by_zero := by
  rw [thread_of_loop p _ _ _ (loop_zero_timeout p fuel), print_report_init]

theorem source_init_count : source_init.i = 0 := rfl

/-- C6: with `timeout=0` the loop condition fails at the first check on every
platform, the loop ends with `i = 0`, and the report evaluates `total / i`
with a zero divisor: the division is not guarded. -/
theorem zero_timeout_divides_by_zero (p : Platform) (fuel : Nat) :
    source_loop p zero_timeout_params (fuel + 1) 0 source_init = .ok (some source_init) ∧
      source_init.i = 0 ∧
      ipistorm_source_thread p zero_timeout_params (fuel + 1) = .error .div_by_zero :=
  ⟨loop_zero_timeout p fuel, source_init_count, thread_zero_timeout p fuel⟩

/-! ## The tick budget -/

/-- C8, counterexample to the claim as stated: with a 512 MHz timebase and
`timeout = 2 ^ 49` seconds the product is a multiple of `2 ^ 64`, the budget
is 0, and although the first reading of the loop condition equals `tb_start`
the loop completes no iteration and the report divides by `i = 0`. -/
theorem budget_overflows_to_zero :
    0 < long_timeout_params.timeout ∧ 1 ≤ fast_platform.tb_ticks_per_usec ∧
    fast_platform.mftb 1 = fast_platform.mftb 0 ∧
    budget fast_platform long_timeout_params = 0 ∧
    source_loop fast_platform long_timeout_params 1 0 source_init = .ok (some source_init) ∧
    ipistorm_source_thread fast_platform long_timeout_params 1 = .error .div_by_zero :=
  ⟨by decide, by decide, rfl, rfl, rfl, rfl⟩

/-- C8 (amended): for every positive timeout and every tick rate of at least
one tick per microsecond such that `tb_ticks_per_usec * timeout * 1000000` is
below `2 ^ 64`, the tick budget is that product and is greater than 0; then,
when the first reading of the loop condition equals `tb_start`, the first
check passes, and every run of the loop that ends by a failing condition
within `2 ^ 64` checks ends with `i ≥ 1`, so that the report divides by a
non-zero count. -/
theorem budget_positive (p : Platform) (prm : Params)
    (ht : 0 < prm.timeout) (hr : 1 ≤ p.tb_ticks_per_usec)
    (hfit : (p.tb_ticks_per_usec : Int) * prm.timeout * 1000000 < 2 ^ 64) :
    0 < budget p prm ∧
    budget p prm = p.tb_ticks_per_usec * prm.timeout.toNat * 1000000 ∧
    (p.mftb 1 = p.mftb 0 →
      loop_cond p prm 0 = true ∧
      ∀ fuel st, fuel ≤ ULONG_MOD →
        source_loop p prm fuel 0 source_init = .ok (some st) →
        1 ≤ st.i ∧ ∃ r, print_report st = .ok r ∧ r.count = st.i ∧
          r.avg = st.total / st.i) := by
  have hb := budget_eq p prm (le_of_lt ht) hfit
  have htn : 1 ≤ prm.timeout.toNat := by omega
  have hpos : 0 < budget p prm := by
    rw [hb]
    have : 1 ≤ p.tb_ticks_per_usec * prm.timeout.toNat := Nat.mul_pos hr htn
    omega
  refine ⟨hpos, hb, ?_⟩
  intro h01
  have hc : loop_cond p prm 0 = true := by
    unfold loop_cond elapsed
    simp only [Nat.zero_add]
    rw [h01, ulong_sub_self]
    exact decide_eq_true hpos
  refine ⟨hc, ?_⟩
  intro fuel st hfuel hrun
  obtain ⟨n, hn, _, hex, hrec⟩ := source_loop_some p prm fuel 0 source_init st hrun
  have hn1 : 1 ≤ n := by
    by_contra h0
    have : n = 0 := by omega
    subst this
    rw [Nat.add_zero, hc] at hex
    cases hex
  have hcnt := record_samples_count _ source_init st hrec
  have hlt := record_samples_count_lt _ source_init st hrec (by decide)
  rw [Nat.mod_eq_of_lt hlt, samples_from_length, source_init_count, Nat.zero_add,
    Nat.mod_eq_of_lt (by omega)] at hcnt
  have hi : st.i ≠ 0 := by omega
  exact ⟨by omega, _, print_report_ok st hi, rfl, rfl⟩

/-- Witness for C8: the default timeout of 10 seconds on a 512 MHz timebase
gives a budget of 5120000000 ticks. -/
theorem budget_positive_witness :
    0 < budget fast_platform default_params ∧
    budget fast_platform default_params = 5120000000 :=
  ⟨(budget_positive fast_platform default_params (by decide) (by decide) (by decide)).1,
   (budget_positive fast_platform default_params (by decide) (by decide) (by decide)).2.1⟩

/-! ## Termination of the timed loop -/

/-- C9: for every timeout and every time source whose successive 64-bit
readings strictly increase over the first `budget` checks, the loop
terminates: there is an `n ≤ budget` such that the elapsed ticks are below the
budget at each of the checks before iterations `0 .. n - 1` and reach the
budget at the next check, and once that check has been made the loop is no
longer running. When the samples of these `n` iterations lie in
`1 ≤ d < 2 ^ 32`, the loop is still running as long as at most `n` checks
have been made, and with the next check it ends, having executed exactly `n`
iterations (one check per iteration and one final check). -/
theorem source_loop_terminates (p : Platform) (prm : Params)
    (hmono : ∀ k, k < budget p prm → p.mftb k < p.mftb (k + 1))
    (hfit : p.mftb (budget p prm) < ULONG_MOD) :
    ∃ n, n ≤ budget p prm ∧
      (∀ j, j < n → elapsed p j < budget p prm) ∧
      budget p prm ≤ elapsed p n ∧
      (∀ fuel, n < fuel → source_loop p prm fuel 0 source_init ≠ .ok none) ∧
      ((∀ k, k < n → 1 ≤ sample p prm k ∧ sample p prm k < 2 ^ 32) →
        (∀ fuel, fuel ≤ n → source_loop p prm fuel 0 source_init = .ok none) ∧
        ∀ fuel, n < fuel →
          ∃ st, source_loop p prm fuel 0 source_init = .ok (some st) ∧ st.i = n) := by
  have hex : ∃ n, loop_cond p prm n = false ∧ n ≤ budget p prm := by
    by_cases hB : budget p prm = 0
    · refine ⟨0, ?_, by omega⟩
      unfold loop_cond
      rw [hB]
      simp
    · refine ⟨budget p prm - 1, ?_, by omega⟩
      have hg := mftb_growth p.mftb (budget p prm) hmono (budget p prm) (le_refl _)
      have he : elapsed p (budget p prm - 1) = p.mftb (budget p prm) - p.mftb 0 := by
        unfold elapsed
        rw [show budget p prm - 1 + 1 = budget p prm by omega]
        exact ulong_sub_of_le _ _ (by omega) hfit
      unfold loop_cond
      rw [he]
      simp only [decide_eq_false_iff_not, not_lt]
      omega
  have hex2 : ∃ n, loop_cond p prm n = false := ⟨hex.choose, hex.choose_spec.1⟩
  have hmin : ∀ j, j < Nat.find hex2 → loop_cond p prm (0 + j) = true := by
    intro j hj
    have := Nat.find_min hex2 hj
    rw [Nat.zero_add]
    simpa using this
  have hstop : loop_cond p prm (0 + Nat.find hex2) = false := by
    rw [Nat.zero_add]
    exact Nat.find_spec hex2
  have hle : Nat.find hex2 ≤ budget p prm :=
    le_trans (Nat.find_min' hex2 hex.choose_spec.1) hex.choose_spec.2
  refine ⟨Nat.find hex2, hle, ?_, ?_, ?_, ?_⟩
  · intro j hj
    have := hmin j hj
    rw [Nat.zero_add] at this
    exact of_decide_eq_true this
  · have := hstop
    rw [Nat.zero_add] at this
    exact not_lt.1 (of_decide_eq_false this)
  · intro fuel hfuel
    exact source_loop_not_running p prm (Nat.find hex2) 0 fuel source_init hmin hstop hfuel
  · intro hs
    constructor
    · intro fuel hfuel
      apply source_loop_running p prm fuel 0 source_init
      · intro j hj
        exact hmin j (by omega)
      · intro j hj
        rw [Nat.zero_add]
        exact hs j (by omega)
    · intro fuel hfuel
      have hrun := source_loop_exit p prm (Nat.find hex2) 0 fuel source_init hmin hstop hfuel
      obtain ⟨st, hrec⟩ := (record_samples_ok_iff (samples_from p prm 0 (Nat.find hex2))
        source_init).2 (by
          intro d hd
          obtain ⟨j, _, hj, rfl⟩ := samples_from_mem p prm _ _ d hd
          exact hs j (by omega))
      rw [hrec] at hrun
      refine ⟨st, hrun, ?_⟩
      have hcnt := record_samples_count _ source_init st hrec
      have hlt := record_samples_count_lt _ source_init st hrec (by decide)
      have hB := budget_lt p prm
      rw [Nat.mod_eq_of_lt hlt, samples_from_length, source_init_count, Nat.zero_add,
        Nat.mod_eq_of_lt (by omega)] at hcnt
      exact hcnt

/-- Witness for C9: the stub platform (one tick per reading, 500 ns per call)
with a timeout of one second. Its readings strictly increase, every sample is
500 ns, and the loop ends after some `n ≤ budget` iterations with `i = n`. -/
theorem source_loop_terminates_witness :
    ∃ n, n ≤ budget stub_platform one_second_params ∧
      (∀ j, j < n → elapsed stub_platform j < budget stub_platform one_second_params) ∧
      budget stub_platform one_second_params ≤ elapsed stub_platform n ∧
      (∀ fuel, fuel ≤ n →
        source_loop stub_platform one_second_params fuel 0 source_init = .ok none) ∧
      ∀ fuel, n < fuel →
        ∃ st, source_loop stub_platform one_second_params fuel 0 source_init
          = .ok (some st) ∧ st.i = n := by
  obtain ⟨n, h1, h2, h3, _, h5⟩ := source_loop_terminates stub_platform one_second_params
    (fun k _ => Nat.add_lt_add_left (Nat.lt_succ_self k) 1000)
    (by decide)
  have hs : ∀ k, k < n → 1 ≤ sample stub_platform one_second_params k ∧
      sample stub_platform one_second_params k < 2 ^ 32 :=
    fun _ _ => ⟨(by decide : 1 ≤ 500), (by decide : 500 < 2 ^ 32)⟩
  exact ⟨n, h1, h2, h3, (h5 hs).1, (h5 hs).2⟩

/-! ## The histogram on samples within range -/

theorem sum_set_add (l : List Nat) : ∀ (k v : Nat), k < l.length →
    (l.set k v).sum + l.getD k 0 = l.sum + v := by
  induction l with
  | nil => intro k v h; simp at h
  | cons a l ih =>
    intro k v h
    cases k with
    | zero => simp; omega
    | succ k =>
      have := ih k v (by simpa using h)
      simp only [List.set_cons_succ, List.sum_cons, List.getD_cons_succ]
      omega

theorem getD_le_sum (l : List Nat) : ∀ k : Nat, l.getD k 0 ≤ l.sum := by
  induction l with
  | nil => intro k; simp
  | cons a l ih =>
    intro k
    cases k with
    | zero => simp
    | succ k =>
      have := ih k
      simp only [List.getD_cons_succ, List.sum_cons]
      omega

/-- On samples in `1 ≤ d < 2 ^ 32`, as long as the counters do not wrap, the
loop adds one to the sum of the 32 buckets in every iteration: the sum of the
buckets grows by the number of samples. -/
theorem record_samples_hist_sum (ds : List Nat) : ∀ st st2 : SourceState,
    record_samples st ds = .ok st2 → st.delta_hist.length = 32 →
    st.delta_hist.sum + ds.length < ULONG_MOD →
    st2.delta_hist.length = 32 ∧ st2.delta_hist.sum = st.delta_hist.sum + ds.length := by
  induction ds with
  | nil => intro st st2 h hl _; simp [record_samples] at h; subst h; simp [hl]
  | cons d ds ih =>
    intro st st2 h hl hlt
    obtain ⟨st1, hb, hr⟩ := record_samples_cons_ok st st2 d ds h
    obtain ⟨h1, h2⟩ := loop_body_ok_range st st1 d hb
    have he := loop_body_ok_eq st st1 d hb
    have hlog : Nat.log 2 d < 32 := Nat.log_lt_of_lt_pow (by omega) h2
    have hh : st1.delta_hist = st.delta_hist.set (Nat.log 2 d)
        ((st.delta_hist.getD (Nat.log 2 d) 0 + 1) % ULONG_MOD) := by rw [he]
    have hle := getD_le_sum st.delta_hist (Nat.log 2 d)
    simp only [List.length_cons] at hlt
    have hmod : (st.delta_hist.getD (Nat.log 2 d) 0 + 1) % ULONG_MOD
        = st.delta_hist.getD (Nat.log 2 d) 0 + 1 := Nat.mod_eq_of_lt (by omega)
    have hs := sum_set_add st.delta_hist (Nat.log 2 d)
      (st.delta_hist.getD (Nat.log 2 d) 0 + 1) (by omega)
    rw [hmod] at hh
    have hl1 : st1.delta_hist.length = 32 := by rw [hh]; simpa using hl
    have hs1 : st1.delta_hist.sum = st.delta_hist.sum + 1 := by rw [hh]; omega
    obtain ⟨a, b⟩ := ih st1 st2 hr hl1 (by omega)
    refine ⟨a, ?_⟩
    simp only [List.length_cons]
    omega

/-- The bucket-sum invariant on the samples the histogram can hold: for
fewer than `2 ^ 64` samples, all in `1 ≤ d < 2 ^ 32`, the loop ends and the
sum of the 32 buckets equals the iteration count `i`. -/
theorem hist_sum_eq_count (samples : List Nat)
    (hr : ∀ d ∈ samples, 1 ≤ d ∧ d < 2 ^ 32) (hlen : samples.length < ULONG_MOD) :
    ∃ st, record_samples source_init samples = .ok st ∧
      st.delta_hist.length = 32 ∧ st.delta_hist.sum = st.i ∧ st.i = samples.length := by
  obtain ⟨st, h⟩ := (record_samples_ok_iff samples source_init).2 hr
  have h0 : source_init.delta_hist.sum = 0 := by decide
  obtain ⟨a, b⟩ := record_samples_hist_sum samples source_init st h rfl (by omega)
  have hc := record_samples_count samples source_init st h
  have hcl := record_samples_count_lt samples source_init st h (by decide)
  rw [Nat.mod_eq_of_lt hcl, source_init_count, Nat.zero_add, Nat.mod_eq_of_lt hlen] at hc
  exact ⟨st, h, a, by omega, hc⟩

/-- On samples in `1 ≤ d < 2 ^ 32` bucket `j` counts, modulo `2 ^ 64`, the
samples whose binary logarithm is `j`, that is the samples in
`2 ^ j ≤ d < 2 ^ (j + 1)`. -/
theorem record_samples_bucket (ds : List Nat) : ∀ (st st2 : SourceState) (j : Nat),
    record_samples st ds = .ok st2 → st.delta_hist.length = 32 → j < 32 →
    st.delta_hist.getD j 0 < ULONG_MOD →
    st2.delta_hist.length = 32 ∧
    st2.delta_hist.getD j 0 =
      (st.delta_hist.getD j 0 + ds.countP (fun d => decide (Nat.log 2 d = j))) % ULONG_MOD := by
  induction ds with
  | nil =>
    intro st st2 j h hl _ hlt
    simp [record_samples] at h
    subst h
    refine ⟨hl, ?_⟩
    simp only [List.countP_nil, Nat.add_zero]
    exact (Nat.mod_eq_of_lt hlt).symm
  | cons d ds ih =>
    intro st st2 j h hl hj hlt
    obtain ⟨st1, hb, hr⟩ := record_samples_cons_ok st st2 d ds h
    obtain ⟨h1, h2⟩ := loop_body_ok_range st st1 d hb
    have he := loop_body_ok_eq st st1 d hb
    have hlog : Nat.log 2 d < 32 := Nat.log_lt_of_lt_pow (by omega) h2
    have hh : st1.delta_hist = st.delta_hist.set (Nat.log 2 d)
        ((st.delta_hist.getD (Nat.log 2 d) 0 + 1) % ULONG_MOD) := by rw [he]
    have hl1 : st1.delta_hist.length = 32 := by rw [hh]; simpa using hl
    have hM : 0 < ULONG_MOD := by decide
    by_cases hjd : Nat.log 2 d = j
    · have hg : st1.delta_hist.getD j 0 = (st.delta_hist.getD j 0 + 1) % ULONG_MOD := by
        rw [hh, hjd]; exact getD_set_same _ _ _ (by omega)
      obtain ⟨a, b⟩ := ih st1 st2 j hr hl1 hj (by rw [hg]; exact Nat.mod_lt _ hM)
      refine ⟨a, ?_⟩
      rw [b, hg, List.countP_cons_of_pos _ _ (by simpa using hjd)]
      rw [Nat.add_mod, Nat.mod_mod, ← Nat.add_mod]
      congr 1; omega
    · have hg : st1.delta_hist.getD j 0 = st.delta_hist.getD j 0 := by
        rw [hh]; exact getD_set_other _ _ _ _ (Ne.symm hjd)
      obtain ⟨a, b⟩ := ih st1 st2 j hr hl1 hj (by rw [hg]; exact hlt)
      refine ⟨a, ?_⟩
      rw [b, hg, List.countP_cons_of_neg _ _ (by simpa using hjd)]

/-- What histogram line `j` of the report holds: for fewer than `2 ^ 64`
samples, all in `1 ≤ d < 2 ^ 32`, line `j` is the pair of `2 ^ j` and the
number of samples `d` with `2 ^ j ≤ d < 2 ^ (j + 1)`. -/
theorem report_line_counts_bucket (samples : List Nat) (j : Nat) (hne : samples ≠ [])
    (hr : ∀ d ∈ samples, 1 ≤ d ∧ d < 2 ^ 32) (hlen : samples.length < ULONG_MOD)
    (hj : j < 32) :
    ∃ st r, record_samples source_init samples = .ok st ∧ print_report st = .ok r ∧
      r.lines[j]? = some (2 ^ j,
        samples.countP (fun d => decide (2 ^ j ≤ d ∧ d < 2 ^ (j + 1)))) := by
  obtain ⟨st, h, _, _, hi⟩ := hist_sum_eq_count samples hr hlen
  have hpos : 0 < samples.length := List.length_pos.2 hne
  have hb := (record_samples_bucket samples source_init st j h rfl hj (by
    have : source_init.delta_hist.getD j 0 ≤ source_init.delta_hist.sum := getD_le_sum _ _
    have h0 : source_init.delta_hist.sum = 0 := by decide
    have hM : 0 < ULONG_MOD := by decide
    omega)).2
  have hz : source_init.delta_hist.getD j 0 = 0 := by
    have : source_init.delta_hist.getD j 0 ≤ source_init.delta_hist.sum := getD_le_sum _ _
    have h0 : source_init.delta_hist.sum = 0 := by decide
    omega
  have hcount : samples.countP (fun d => decide (Nat.log 2 d = j))
      = samples.countP (fun d => decide (2 ^ j ≤ d ∧ d < 2 ^ (j + 1))) := by
    apply List.countP_congr
    intro d hd
    have hd0 : d ≠ 0 := by have := (hr d hd).1; omega
    simp only [decide_eq_true_eq]
    constructor
    · intro hl
      subst hl
      exact ⟨Nat.pow_log_le_self 2 hd0, Nat.lt_pow_succ_log_self (by decide) d⟩
    · rintro ⟨a, b⟩
      exact Nat.log_eq_of_pow_le_of_lt_pow a b
  have hcl : samples.countP (fun d => decide (Nat.log 2 d = j)) < ULONG_MOD :=
    lt_of_le_of_lt (List.countP_le_length _) hlen
  rw [hz, Nat.zero_add, Nat.mod_eq_of_lt hcl, hcount] at hb
  refine ⟨st, _, h, print_report_ok st (by omega), ?_⟩
  have hp : (2 : Nat) ^ j < ULONG_MOD :=
    lt_of_le_of_lt (Nat.pow_le_pow_right (by decide) (by omega : j ≤ 31)) (by decide)
  show ((List.range HIST_SIZE).map _)[j]? = _
  rw [List.getElem?_map, List.getElem?_range (by unfold HIST_SIZE; exact hj)]
  simp only [Option.map_some', to_ulong, Nat.mod_eq_of_lt hp, hb]

/-! ## Lemmas on the transition system -/

theorem flags_inv_init : flags_inv system_init := by
  simp [flags_inv, system_init, past_stop, past_handshake]

theorem flags_inv_step (s : System) (e : Event) (h : flags_inv s) : flags_inv (step s e) := by
  obtain ⟨st, sr, tr, spc, tpc, calls⟩ := s
  obtain ⟨h1, h2, h3, h4, h5, h6⟩ := h
  simp only at h1 h2 h3 h4 h5 h6
  cases e with
  | source env =>
    cases spc <;> cases tpc <;> cases env <;>
      simp_all [flags_inv, step, source_step, atomic_inc, past_stop, past_handshake]
  | target =>
    cases spc <;> cases tpc <;>
      simp_all [flags_inv, step, target_step, atomic_inc, past_stop, past_handshake]

theorem flags_inv_run_from (sched : List Event) :
    ∀ s, flags_inv s → flags_inv (run_from s sched) := by
  induction sched with
  | nil => intro s h; exact h
  | cons e es ih => intro s h; exact ih (step s e) (flags_inv_step s e h)

theorem flags_inv_run (sched : List Event) : flags_inv (run sched) :=
  flags_inv_run_from sched system_init flags_inv_init

theorem run_append (sched more : List Event) :
    run (sched ++ more) = run_from (run sched) more := by
  simp [run, run_from, List.foldl_append]

/-- A step never moves a thread back across its `atomic_inc`. -/
theorem step_keeps_progress (s : System) (e : Event) :
    (s.tpc ≠ .inc_running → (step s e).tpc ≠ .inc_running) ∧
    (s.spc ≠ .inc_running → (step s e).spc ≠ .inc_running) ∧
    (past_stop s.spc = true → past_stop (step s e).spc = true) := by
  obtain ⟨st, sr, tr, spc, tpc, calls⟩ := s
  cases e with
  | source env =>
    cases spc <;> cases tpc <;> cases env <;>
      simp [step, source_step, past_stop] <;> split <;> simp
  | target =>
    cases spc <;> cases tpc <;>
      simp [step, target_step, past_stop] <;> split <;> simp

theorem run_from_keeps_progress (more : List Event) : ∀ s : System,
    (s.tpc ≠ .inc_running → (run_from s more).tpc ≠ .inc_running) ∧
    (s.spc ≠ .inc_running → (run_from s more).spc ≠ .inc_running) ∧
    (past_stop s.spc = true → past_stop (run_from s more).spc = true) := by
  induction more with
  | nil => intro s; exact ⟨id, id, id⟩
  | cons e es ih =>
    intro s
    obtain ⟨a, b, c⟩ := step_keeps_progress s e
    obtain ⟨a2, b2, c2⟩ := ih (step s e)
    exact ⟨fun h => a2 (a h), fun h => b2 (b h), fun h => c2 (c h)⟩

/-- C10: in every state `run sched` reached by interleaving steps of the two
threads in any order, (1) once the source is past its loop that waits for
`target_running` (so whenever it reads `tb_start` or issues a remote
invocation) the flag `target_running` is set and the target has executed its
`atomic_inc`; (2) the target has returned only if `stop_test` is set; (3) a
flag that is set is still set after any further steps `more`. -/
theorem handshake_invariant (sched more : List Event) :
    (past_handshake (run sched).spc = true →
      (run sched).target_running ≠ 0 ∧ (run sched).tpc ≠ .inc_running) ∧
    ((run sched).calls ≠ 0 → (run sched).target_running ≠ 0) ∧
    ((run sched).tpc = .returned → (run sched).stop_test ≠ 0) ∧
    ((run sched).stop_test ≠ 0 → (run (sched ++ more)).stop_test ≠ 0) ∧
    ((run sched).source_running ≠ 0 → (run (sched ++ more)).source_running ≠ 0) ∧
    ((run sched).target_running ≠ 0 → (run (sched ++ more)).target_running ≠ 0) := by
  have hi := flags_inv_run sched
  have hj := flags_inv_run (sched ++ more)
  have hp := run_from_keeps_progress more (run sched)
  rw [← run_append] at hp
  obtain ⟨i1, i2, i3, i4, i5, i6⟩ := hi
  obtain ⟨j1, j2, j3, _, _, _⟩ := hj
  obtain ⟨p1, p2, p3⟩ := hp
  have key : past_handshake (run sched).spc = true →
      (run sched).target_running ≠ 0 ∧ (run sched).tpc ≠ .inc_running := by
    intro h
    have ht := i4 h
    refine ⟨?_, ht⟩
    rw [i1, if_neg ht]
    decide
  refine ⟨key, fun h => (key (i6 h)).1, ?_, ?_, ?_, ?_⟩
  · intro h
    rw [i3, if_pos (i5 h)]
    decide
  · intro h
    have hs : past_stop (run sched).spc = true := by
      by_contra hn
      rw [i3, if_neg hn] at h
      exact h rfl
    rw [j3, if_pos (p3 hs)]
    decide
  · intro h
    have hs : (run sched).spc ≠ .inc_running := by
      intro hn
      rw [i2, if_pos hn] at h
      exact h rfl
    rw [j2, if_neg (p2 hs)]
    decide
  · intro h
    have hs : (run sched).tpc ≠ .inc_running := by
      intro hn
      rw [i1, if_pos hn] at h
      exact h rfl
    rw [j1, if_neg (p1 hs)]
    decide

end Ipistorm
